import Mathlib

/-
  Verification of the firefly/track simulation core (scene_game.cc).

  The C++ code is shallowly embedded: float arithmetic is idealized as exact
  real arithmetic, the two curve variants become a closed sum type, the
  polymorphic track pointer held by a firefly becomes a stable index into the
  track list, and each mutating member function becomes a pure state-passing
  function.  Rendering-only state (trail ring buffers, selection flags,
  colors) is omitted; it is never read by the simulation paths verified here.
-/

set_option maxHeartbeats 1000000

/-- 2D vector, mirroring `struct vec2` (float fields idealized as reals). -/
structure Vec2 where
  x : ℝ
  y : ℝ

noncomputable instance : Add Vec2 := ⟨fun a b => ⟨a.x + b.x, a.y + b.y⟩⟩

noncomputable instance : Sub Vec2 := ⟨fun a b => ⟨a.x - b.x, a.y - b.y⟩⟩

noncomputable instance : Neg Vec2 := ⟨fun a => ⟨-a.x, -a.y⟩⟩

noncomputable instance : HMul Vec2 ℝ Vec2 := ⟨fun a k => ⟨a.x * k, a.y * k⟩⟩

noncomputable instance : HDiv Vec2 ℝ Vec2 := ⟨fun a k => ⟨a.x / k, a.y / k⟩⟩

instance : Inhabited Vec2 := ⟨⟨0, 0⟩⟩

/-- Source `vec2::dot`. -/
def Vec2.dot (a b : Vec2) : ℝ := a.x * b.x + a.y * b.y

/-- Source `vec2::det` (2D cross product). -/
def Vec2.det (a b : Vec2) : ℝ := a.x * b.y - a.y * b.x

/-- Source `vec2::rot`: rotation by angle `a`. -/
noncomputable def Vec2.rot (v : Vec2) (a : ℝ) : Vec2 :=
  ⟨v.x * Real.cos a - v.y * Real.sin a, v.x * Real.sin a + v.y * Real.cos a⟩

/-- Source `vec2::norm`: Euclidean norm, `sqrtf(x*x + y*y)`. -/
noncomputable def Vec2.norm (v : Vec2) : ℝ := Real.sqrt (v.x * v.x + v.y * v.y)

/-- Source `seg_intxn`: the segment-segment intersection test used as the chord test.
    Both sign products use non-strict `<= 0`, exactly as in the source. -/
def seg_intxn (a b c d : Vec2) : Prop :=
  (c - a).det (b - a) * ((d - a).det (b - a)) ≤ 0 ∧
  (a - c).det (d - c) * ((b - c).det (d - c)) ≤ 0

noncomputable instance (a b c d : Vec2) : Decidable (seg_intxn a b c d) := by
  unfold seg_intxn; infer_instance

/-- Proper separation as worded by the spec for the chord test: the two chord
    endpoints lie on strictly opposite sides of the line through `a, b`, and
    `a, b` lie on strictly opposite sides of the chord line.  Strictly
    opposite sides of a line means the two signed areas have strictly
    opposite signs, i.e. their product is negative. -/
def properSeparation (a b c d : Vec2) : Prop :=
  (c - a).det (b - a) * ((d - a).det (b - a)) < 0 ∧
  (a - c).det (d - c) * ((b - c).det (d - c)) < 0

/-- Source `atan2f(y, x)` idealized: the principal argument of the complex number
    `x + y*i`, in `(-pi, pi]`, with `atan2 0 0 = 0`. -/
noncomputable def atan2 (y x : ℝ) : ℝ := Complex.arg ⟨x, y⟩

/-- Track flag bits (`track::ATTRACT`, `track::RETURN`, `track::COLLI`,
    `track::FIXED`). -/
def FLAG_ATTRACT : ℕ := 1

def FLAG_RETURN : ℕ := 2

def FLAG_COLLI : ℕ := 3

def FLAG_FIXED : ℕ := 16

/-- The closed set of curve variants: `track_cir` (radius `r`, length
    `2*pi*r` fixed by the constructor) and `track_seg` (unit direction
    `ext` and stored total length, the state left by `track_seg`'s
    constructor).  `o` is the world origin and `flags` the bitmask. -/
inductive Track where
  | cir (o : Vec2) (r : ℝ) (flags : ℕ)
  | seg (o : Vec2) (ext : Vec2) (len : ℝ) (flags : ℕ)

instance : Inhabited Track := ⟨.seg ⟨0, 0⟩ ⟨0, 0⟩ 0 0⟩

/-- Source `track_seg` constructor: stores `ext / ext.norm()` and
    `len = ext.norm() * 2`. -/
noncomputable def mkTrackSeg (o ext : Vec2) (flags : ℕ) : Track :=
  .seg o (ext / ext.norm) (ext.norm * 2) flags

def Track.o : Track → Vec2
  | .cir o _ _ => o
  | .seg o _ _ _ => o

def Track.flags : Track → ℕ
  | .cir _ _ fl => fl
  | .seg _ _ _ fl => fl

/-- Source `track::len`: set to `2*pi*r` by `track_cir`'s constructor, stored for a
    segment. -/
noncomputable def Track.len : Track → ℝ
  | .cir _ r _ => 2 * Real.pi * r
  | .seg _ _ len _ => len

/-- Source `local_at`. -/
noncomputable def Track.localAt : Track → ℝ → Vec2
  | .cir _ r _, t => Vec2.rot ⟨r, 0⟩ (t / r)
  | .seg _ ext len _, t => ext * (t - len / 2)

/-- Source `track::at`. -/
noncomputable def Track.atPhase (tr : Track) (t : ℝ) : Vec2 := tr.localAt t + tr.o

/-- Source `local_nearest`: returns `(phase, distance)` of the nearest curve point
    for a track-local query point. -/
noncomputable def Track.localNearest : Track → Vec2 → ℝ × ℝ
  | .cir _ r _, p =>
    let a := atan2 p.y p.x
    let a2 := if a < 0 then a + 2 * Real.pi else a
    (a2 * r, (p - Vec2.rot ⟨r, 0⟩ a2).norm)
  | .seg _ ext len _, p =>
    let t := p.dot ext
    let t2 := if t < -(len / 2) then -(len / 2) else if t > len / 2 then len / 2 else t
    (t2 + len / 2, (p - ext * t2).norm)

/-- Source `track::nearest`. -/
noncomputable def Track.nearest (tr : Track) (p : Vec2) : ℝ × ℝ :=
  tr.localNearest (p - tr.o)

/-- A firefly: track reference (a stable index into the scene's track list,
    standing for the non-owning pointer `tr`), arclength phase `t` and
    signed velocity `v`. -/
structure Firefly where
  tri : ℕ
  t : ℝ
  v : ℝ

instance : Inhabited Firefly := ⟨⟨0, 0, 0⟩⟩

/-- Resolve a track index (pointer dereference). -/
def getTrack (tracks : List Track) (i : ℕ) : Track := tracks.getD i default

/-- Source `scene_game::STEPS` (simulation step rate). -/
def STEPS : ℝ := 480

/-- The advance-and-wrap stage of `firefly::update`:
    `t += v / STEPS; if (t >= len) t -= len; if (t < 0) t += len;`
    applied to the already-incremented phase. -/
noncomputable def wrapStep (len t : ℝ) : ℝ :=
  let t1 := if t ≥ len then t - len else t
  if t1 < 0 then t1 + len else t1

/-- Point `p1` of one step of `firefly::update`: world position before the step. -/
noncomputable def stepP1 (tracks : List Track) (f : Firefly) : Vec2 :=
  (getTrack tracks f.tri).atPhase f.t

/-- The wrapped post-advance phase `t_new` of one step of `firefly::update`. -/
noncomputable def stepTnew (tracks : List Track) (f : Firefly) : ℝ :=
  wrapStep (getTrack tracks f.tri).len (f.t + f.v / STEPS)

/-- Point `p2` of one step of `firefly::update`: world position after the advance. -/
noncomputable def stepP2 (tracks : List Track) (f : Firefly) : Vec2 :=
  (getTrack tracks f.tri).atPhase (stepTnew tracks f)

/-- The per-target-track crossing detection of `firefly::update`: the 0.01
    pre-step distance gate, the two projections, the 1e-6 degeneracy nudge,
    and the chord test.  Returns the (possibly nudged) projected parameters
    `(t1, t2)` when a crossing is detected, `none` otherwise. -/
noncomputable def tryCross (tr : Track) (p1 p2 : Vec2) : Option (ℝ × ℝ) :=
  let near := tr.nearest p1
  if near.2 ≥ 1 / 100 then none
  else
    let t1 := near.1
    let t2 := (tr.nearest p2).1
    let pr :=
      if |t1 - t2| < 1 / 1000000 then
        let d := if t1 < 1 then (1 / 1000000 : ℝ) else t1 * (1 / 1000000)
        (t1 - d, t2 + d)
      else (t1, t2)
    if seg_intxn p1 p2 (tr.atPhase pr.1) (tr.atPhase pr.2) then some pr else none

/-- The crossing resolution of `firefly::update`: the ATTRACT branch followed
    by the RETURN branch (two separate `if`s in the source, both taken when
    both flags are set).  `k` is the index of the crossed track, `fA` the
    firefly with its already-advanced phase, `tp` the pre-step phase. -/
noncomputable def applyCross (k : ℕ) (tr : Track) (tp : ℝ) (fA : Firefly) (t1 t2 : ℝ) : Firefly :=
  let f1 : Firefly :=
    if tr.flags &&& FLAG_ATTRACT ≠ 0 then
      ⟨k, t2, if fA.v * (t2 - t1) < 0 then -fA.v else fA.v⟩
    else fA
  if tr.flags &&& FLAG_RETURN ≠ 0 then ⟨f1.tri, tp, -f1.v⟩ else f1

/-- The scanning loop of `firefly::update` over the indexed track list:
    skips the firefly's own track and non-collidable tracks, resolves the
    first detected crossing and stops (`break`). -/
noncomputable def scanCross (p1 p2 : Vec2) (tp : ℝ) (fA : Firefly) :
    List (ℕ × Track) → Firefly
  | [] => fA
  | (k, tr) :: rest =>
    if k ≠ fA.tri ∧ tr.flags &&& FLAG_COLLI ≠ 0 then
      match tryCross tr p1 p2 with
      | some (t1, t2) => applyCross k tr tp fA t1 t2
      | none => scanCross p1 p2 tp fA rest
    else scanCross p1 p2 tp fA rest

/-- Source `firefly::update(tracks)`: one autonomous simulation step. -/
noncomputable def Firefly.update (tracks : List Track) (f : Firefly) : Firefly :=
  scanCross (stepP1 tracks f) (stepP2 tracks f) f.t
    ⟨f.tri, stepTnew tracks f, f.v⟩ (List.enumFrom 0 tracks)

/-- Resolve a firefly index in the scene's firefly sequence. -/
def getFF (ffs : List Firefly) (i : ℕ) : Firefly := ffs.getD i default

/-- The inner loop of `scene_game::build_links` for one group and one
    independent member: the list of (dependent index, phase delta at load
    time) pairs. -/
noncomputable def linkDeltas (ffs : List Firefly) (group : List ℕ) (indep : ℕ) :
    List (ℕ × ℝ) :=
  (group.filter (fun dep => dep ≠ indep)).map
    (fun dep => (dep, (getFF ffs dep).t - (getFF ffs indep).t))

/-- The firefly branch of `scene_game::ptmove`: the dragged firefly's phase
    becomes the projection of the pointer position (plus the grab offset)
    onto its track, and every linked firefly's phase is set to the new phase
    plus its stored delta.  No wrapping is applied anywhere on this path. -/
noncomputable def ptmoveFirefly (tracks : List Track) (links : List (ℕ × ℝ))
    (sel : ℕ) (ffs : List Firefly) (p offs : Vec2) : List Firefly :=
  let f := getFF ffs sel
  let selT := ((getTrack tracks f.tri).nearest (p + offs)).1
  let ffs1 := ffs.set sel ⟨f.tri, selT, f.v⟩
  links.foldl
    (fun acc l => acc.set l.1 ⟨(getFF acc l.1).tri, selT + l.2, (getFF acc l.1).v⟩)
    ffs1

/-- Drag scenario for C1: one segment track of length 2, two fireflies in one
    synchronization group, the second loaded at phase 1.9. -/
noncomputable def trkC1 : Track := Track.seg ⟨0, 0⟩ ⟨1, 0⟩ 2 0

noncomputable def ffsC1 : List Firefly := [⟨0, 0, 1⟩, ⟨0, 19 / 10, 1⟩]

/-- Crossing scenario shared by the ATTRACT/RETURN/both-flags cases: the
    firefly rides a horizontal length-2 segment through the origin and a
    vertical length-2 segment through the origin is the crossing target.
    With phase `199/200` and velocity `24/5` the step moves the firefly
    from `(-1/200, 0)` to `(1/200, 0)`, across the target. -/
noncomputable def srcCX : Track := Track.seg ⟨0, 0⟩ ⟨1, 0⟩ 2 0

noncomputable def tgtCX (fl : ℕ) : Track := Track.seg ⟨0, 0⟩ ⟨0, 1⟩ 2 fl

noncomputable def ffCX : Firefly := ⟨0, 199 / 200, 24 / 5⟩

/-- The bellflower variant: immediate counter (`bellflower_ord`) or delayed
    counter (`bellflower_delay`) carrying its countdown duration in steps
    (the C++ constructor stores `d0 * STEPS`, converting seconds to steps at
    load time; the simulation only ever sees the step count). -/
inductive BFKind where
  | ord
  | delay (d0 : ℤ)

/-- Bellflower state: sensing geometry, initial and current count, the
    edge-detection latch `last_on`, and the delayed variant's countdown `d`
    (unused junk for the immediate variant, which never reads or writes
    it). -/
structure Bellflower where
  kind : BFKind
  o : Vec2
  r : ℝ
  c0 : ℤ
  c : ℤ
  lastOn : Bool
  d : ℤ

/-- Source `firefly::pos`. -/
noncomputable def ffPos (tracks : List Track) (f : Firefly) : Vec2 :=
  (getTrack tracks f.tri).atPhase f.t

/-- Source `bellflower::fireflies_within`: true iff some firefly is within `r` of
    `o`. -/
noncomputable def firefliesWithin (tracks : List Track) (ffs : List Firefly)
    (o : Vec2) (r : ℝ) : Bool :=
  ffs.any fun f => decide ((ffPos tracks f - o).norm ≤ r)

/-- Source `bellflower::update(bool on)`: decrement the count on a rising edge of
    `on` and latch the new level. -/
def bfEdge (b : Bellflower) (onB : Bool) : Bellflower :=
  { b with c := if !b.lastOn && onB then b.c - 1 else b.c, lastOn := onB }

/-- Source `bellflower::reset` and `bellflower_delay::reset`. -/
def bfReset (b : Bellflower) : Bellflower :=
  match b.kind with
  | .ord => { b with c := b.c0, lastOn := false }
  | .delay d0 => { b with c := b.c0, lastOn := false, d := d0 }

/-- Source `bellflower_ord::update(fireflies)` and
    `bellflower_delay::update(fireflies)`: the immediate variant is level-in,
    edge-out; the delayed variant decrements its countdown while some
    firefly is inside, resets it to `d0` whenever none is, and asserts "on"
    exactly when the countdown has reached 0. -/
noncomputable def bfUpdate (tracks : List Track) (ffs : List Firefly)
    (b : Bellflower) : Bellflower :=
  match b.kind with
  | .ord => bfEdge b (firefliesWithin tracks ffs b.o b.r)
  | .delay d0 =>
    let onB := firefliesWithin tracks ffs b.o b.r
    let d2 := if onB then (if 0 < b.d then b.d - 1 else b.d) else d0
    bfEdge { b with d := d2 } (decide (d2 = 0))

/-- C8 scenario: the bellflower sits at the origin with radius `1/2`; a
    firefly at phase 1 of the horizontal length-2 segment is exactly at the
    origin (inside), at phase 2 it is at `(1, 0)` (outside). -/
noncomputable def ffIn : Firefly := ⟨0, 1, 0⟩

noncomputable def ffOut : Firefly := ⟨0, 2, 0⟩

noncomputable def bfC8 (c : ℤ) : Bellflower :=
  ⟨.delay 5, ⟨0, 0⟩, 1 / 2, c, c, false, 5⟩

/-- One tick with a firefly inside the radius. -/
noncomputable def inStep (b : Bellflower) : Bellflower := bfUpdate [trkC1] [ffIn] b

/-- One tick with every firefly outside the radius. -/
noncomputable def outStep (b : Bellflower) : Bellflower := bfUpdate [trkC1] [ffOut] b

/-- The scene state relevant to run/stop: the track list, the firefly
    sequence, the snapshot taken at start-run (`fireflies_init`), and the
    bellflowers. -/
structure Scene where
  tracks : List Track
  fireflies : List Firefly
  firefliesInit : List Firefly
  bellflowers : List Bellflower

/-- One simulation tick of `scene_game::update` while running: every firefly
    advances (each update reads only the shared track list and the firefly's
    own state, so the sequential loop is a map), then every bellflower
    samples the updated firefly positions. -/
noncomputable def sceneTick (s : Scene) : Scene :=
  let ffs2 := s.fireflies.map (fun f => f.update s.tracks)
  { s with fireflies := ffs2,
           bellflowers := s.bellflowers.map (bfUpdate s.tracks ffs2) }

/-- Source `scene_game::start_run`: snapshot the firefly array. -/
def startRun (s : Scene) : Scene := { s with firefliesInit := s.fireflies }

/-- Source `scene_game::stop_run`: restore the firefly snapshot and reset every
    bellflower (the trail manager reset touches rendering state only). -/
def stopRun (s : Scene) : Scene :=
  { s with fireflies := s.firefliesInit,
           bellflowers := s.bellflowers.map bfReset }

/-- Witness scene for C9: one track, one firefly, no bellflowers, one tick. -/
noncomputable def sceneW : Scene := ⟨[trkC1], [ffIn], [], []⟩

@[simp] lemma Vec2.add_x (a b : Vec2) : (a + b).x = a.x + b.x := rfl

@[simp] lemma Vec2.add_y (a b : Vec2) : (a + b).y = a.y + b.y := rfl

@[simp] lemma Vec2.sub_x (a b : Vec2) : (a - b).x = a.x - b.x := rfl

@[simp] lemma Vec2.sub_y (a b : Vec2) : (a - b).y = a.y - b.y := rfl

@[simp] lemma Vec2.mul_x (a : Vec2) (k : ℝ) : (a * k).x = a.x * k := rfl

@[simp] lemma Vec2.mul_y (a : Vec2) (k : ℝ) : (a * k).y = a.y * k := rfl

@[simp] lemma Vec2.div_x (a : Vec2) (k : ℝ) : (a / k).x = a.x / k := rfl

@[simp] lemma Vec2.div_y (a : Vec2) (k : ℝ) : (a / k).y = a.y / k := rfl

/-- C5: the claim states `seg_intxn` reports a crossing iff the segments
    properly (strictly) separate each other, so that a point lying exactly on
    the other segment's line does not count.  Refuted: the source uses
    non-strict comparisons (`<= 0`), so the degenerate configuration
    `a=(0,0), b=(2,0), c=(1,0), d=(1,1)` — where `c` lies exactly on the
    line through `a,b` — is reported as a crossing although it is not a
    proper separation. -/
theorem C5_counterexample :
    seg_intxn ⟨0, 0⟩ ⟨2, 0⟩ ⟨1, 0⟩ ⟨1, 1⟩ ∧
    ¬ properSeparation ⟨0, 0⟩ ⟨2, 0⟩ ⟨1, 0⟩ ⟨1, 1⟩ := by
  constructor
  · constructor <;> · simp only [Vec2.det, Vec2.sub_x, Vec2.sub_y]; norm_num
  · intro h
    have h1 := h.1
    simp only [Vec2.det, Vec2.sub_x, Vec2.sub_y] at h1
    norm_num at h1

/-- C5 (amended): `seg_intxn` reports a crossing iff the two chord endpoints
    lie on weakly opposite sides of the line through `a, b` (on opposite
    sides, or at least one of them on the line), and symmetrically `a, b`
    lie on weakly opposite sides of the chord line. -/
theorem seg_intxn_iff_weak_separation (a b c d : Vec2) :
    seg_intxn a b c d ↔
      (((c - a).det (b - a) ≤ 0 ∧ 0 ≤ (d - a).det (b - a)) ∨
        (0 ≤ (c - a).det (b - a) ∧ (d - a).det (b - a) ≤ 0)) ∧
      (((a - c).det (d - c) ≤ 0 ∧ 0 ≤ (b - c).det (d - c)) ∨
        (0 ≤ (a - c).det (d - c) ∧ (b - c).det (d - c) ≤ 0)) := by
  unfold seg_intxn
  rw [mul_nonpos_iff, mul_nonpos_iff]
  tauto

/-- C6: the chord test is invariant under swapping the two displacement
    endpoints and under swapping the two chord endpoints. -/
theorem seg_intxn_symm (a b c d : Vec2) :
    (seg_intxn a b c d ↔ seg_intxn b a c d) ∧
    (seg_intxn a b c d ↔ seg_intxn a b d c) := by
  have e1 : (c - b).det (a - b) * ((d - b).det (a - b)) =
      (c - a).det (b - a) * ((d - a).det (b - a)) := by
    simp only [Vec2.det, Vec2.sub_x, Vec2.sub_y]; ring
  have e2 : (b - c).det (d - c) * ((a - c).det (d - c)) =
      (a - c).det (d - c) * ((b - c).det (d - c)) := by ring
  have e3 : (c - a).det (b - a) * ((d - a).det (b - a)) =
      (d - a).det (b - a) * ((c - a).det (b - a)) := by ring
  have e4 : (a - d).det (c - d) * ((b - d).det (c - d)) =
      (a - c).det (d - c) * ((b - c).det (d - c)) := by
    simp only [Vec2.det, Vec2.sub_x, Vec2.sub_y]; ring
  constructor
  · unfold seg_intxn
    rw [e1, e2]
  · unfold seg_intxn
    rw [e3, e4]

/-- C1 refuted: dragging firefly 0 to the point `(1/2, 0)` projects it to
    phase `3/2`; link propagation then assigns firefly 1 the phase
    `3/2 + 19/10 = 17/5`, which is not in `[0, 2)` although firefly 1 still
    references the length-2 track.  The interactive-drag path performs no
    phase wrapping. -/
theorem C1_counterexample :
    (getFF (ptmoveFirefly [trkC1] (linkDeltas ffsC1 [0, 1] 0) 0 ffsC1
        ⟨1 / 2, 0⟩ ⟨0, 0⟩) 1).t = 17 / 5 ∧
    (getFF (ptmoveFirefly [trkC1] (linkDeltas ffsC1 [0, 1] 0) 0 ffsC1
        ⟨1 / 2, 0⟩ ⟨0, 0⟩) 1).tri = 0 ∧
    (getTrack [trkC1] 0).len = 2 ∧
    ¬ ((17 / 5 : ℝ) < 2) := by
  have hlinks : linkDeltas ffsC1 [0, 1] 0 = [(1, 19 / 10)] := by
    norm_num [linkDeltas, getFF, ffsC1, List.filter]
  have hmove : ptmoveFirefly [trkC1] [(1, (19 : ℝ) / 10)] 0 ffsC1 ⟨1 / 2, 0⟩ ⟨0, 0⟩ =
      [⟨0, 3 / 2, 1⟩, ⟨0, 17 / 5, 1⟩] := by
    norm_num [ptmoveFirefly, getFF, getTrack, trkC1, ffsC1, Track.nearest,
      Track.localNearest, Track.o, Vec2.dot]
  rw [hlinks, hmove]
  norm_num [getFF, getTrack, trkC1, Track.len]

/-- C1 (amended): the autonomous advance of `firefly::update` does keep the
    phase in `[0, len)`: if the incoming phase is in `[0, len)` and the
    per-step displacement `|v| / STEPS` is at most `len`, the
    subtract-once/add-once wrap lands in `[0, len)`.  (The other
    phase-writing paths — the ATTRACT transfer's nudged `phi2`, the drag
    projection, and drag link propagation — assign without this wrap, and
    link propagation can leave `[0, len)`, per the counterexample.) -/
theorem wrap_phase_range (len t dv : ℝ) (h0 : 0 ≤ t) (h1 : t < len)
    (hdv : |dv| ≤ len) :
    0 ≤ wrapStep len (t + dv) ∧ wrapStep len (t + dv) < len := by
  rcases abs_le.1 hdv with ⟨hl, hr⟩
  simp only [wrapStep]
  split_ifs with hge hneg hneg <;> constructor <;> linarith

/-- Witness for the amended C1 at `t = 1/2`, `len = 1`, `dv = 7/10`. -/
theorem wrap_phase_range_witness :
    (0 ≤ (1 / 2 : ℝ) ∧ (1 / 2 : ℝ) < 1 ∧ |(7 / 10 : ℝ)| ≤ 1) ∧
    0 ≤ wrapStep 1 (1 / 2 + 7 / 10) ∧ wrapStep 1 (1 / 2 + 7 / 10) < 1 := by
  refine ⟨⟨by norm_num, by norm_num, by rw [abs_of_nonneg] <;> norm_num⟩, ?_⟩
  exact wrap_phase_range 1 (1 / 2) (7 / 10) (by norm_num) (by norm_num)
    (by rw [abs_of_nonneg] <;> norm_num)

/-- ATTRACT implies collidable (bit 0 is part of the COLLI mask). -/
lemma colli_of_attract {fl : ℕ} (h : fl &&& FLAG_ATTRACT ≠ 0) :
    fl &&& FLAG_COLLI ≠ 0 := by
  intro hc
  apply h
  have h1 : FLAG_COLLI &&& FLAG_ATTRACT = FLAG_ATTRACT := by decide
  calc fl &&& FLAG_ATTRACT = fl &&& (FLAG_COLLI &&& FLAG_ATTRACT) := by rw [h1]
    _ = (fl &&& FLAG_COLLI) &&& FLAG_ATTRACT := (Nat.and_assoc ..).symm
    _ = 0 := by rw [hc]; decide

/-- RETURN implies collidable (bit 1 is part of the COLLI mask). -/
lemma colli_of_return {fl : ℕ} (h : fl &&& FLAG_RETURN ≠ 0) :
    fl &&& FLAG_COLLI ≠ 0 := by
  intro hc
  apply h
  have h1 : FLAG_COLLI &&& FLAG_RETURN = FLAG_RETURN := by decide
  calc fl &&& FLAG_RETURN = fl &&& (FLAG_COLLI &&& FLAG_RETURN) := by rw [h1]
    _ = (fl &&& FLAG_COLLI) &&& FLAG_RETURN := (Nat.and_assoc ..).symm
    _ = 0 := by rw [hc]; decide

/-- The scanning loop resolves the first track that is not the firefly's own,
    is collidable, and reports a crossing, and ignores everything after it. -/
lemma scanCross_first (p1 p2 : Vec2) (tp : ℝ) (fA : Firefly) (n : ℕ)
    (A B : List Track) (tr : Track) (t1 t2 : ℝ)
    (hprev : ∀ j trj, A.get? j = some trj →
      n + j = fA.tri ∨ trj.flags &&& FLAG_COLLI = 0 ∨ tryCross trj p1 p2 = none)
    (hk : n + A.length ≠ fA.tri) (hC : tr.flags &&& FLAG_COLLI ≠ 0)
    (hf : tryCross tr p1 p2 = some (t1, t2)) :
    scanCross p1 p2 tp fA (List.enumFrom n (A ++ tr :: B)) =
      applyCross (n + A.length) tr tp fA t1 t2 := by
  induction A generalizing n with
  | nil =>
    simp only [List.nil_append, List.enumFrom_cons, List.length_nil, Nat.add_zero]
    rw [scanCross, if_pos ⟨by simpa using hk, hC⟩, hf]
  | cons a A ih =>
    have harith : n + 1 + A.length = n + (a :: A).length := by
      simp [List.length_cons]; omega
    have hrec : scanCross p1 p2 tp fA (List.enumFrom (n + 1) (A ++ tr :: B)) =
        applyCross (n + (a :: A).length) tr tp fA t1 t2 := by
      rw [← harith]
      apply ih
      · intro j trj hj
        have := hprev (j + 1) trj (by simpa using hj)
        rcases this with h | h | h
        · left; omega
        · right; left; exact h
        · right; right; exact h
      · omega
    simp only [List.cons_append, List.enumFrom_cons]
    rw [scanCross]
    by_cases hcond : n ≠ fA.tri ∧ a.flags &&& FLAG_COLLI ≠ 0
    · rw [if_pos hcond]
      have h0 := hprev 0 a (by simp)
      rcases h0 with h | h | h
      · exact absurd (by omega : n = fA.tri) hcond.1
      · exact absurd h hcond.2
      · rw [h]
        exact hrec
    · rw [if_neg hcond]
      exact hrec

/-- C2 (amended): crossing an ATTRACT-flagged track that does not also carry
    the RETURN flag transfers the firefly onto that track, with phase `t2`
    (the later projected parameter, as returned by the crossing detection)
    and the velocity negated exactly when `v * (t2 - t1) < 0`.  The update
    is a pure function of the pre-step state, so the hand-off is
    deterministic. -/
theorem attract_transfer (A B : List Track) (tr : Track) (f : Firefly) (t1 t2 : ℝ)
    (hself : A.length ≠ f.tri)
    (hA : tr.flags &&& FLAG_ATTRACT ≠ 0) (hR : tr.flags &&& FLAG_RETURN = 0)
    (hprev : ∀ j trj, A.get? j = some trj →
      j = f.tri ∨ trj.flags &&& FLAG_COLLI = 0 ∨
      tryCross trj (stepP1 (A ++ tr :: B) f) (stepP2 (A ++ tr :: B) f) = none)
    (hf : tryCross tr (stepP1 (A ++ tr :: B) f) (stepP2 (A ++ tr :: B) f) =
      some (t1, t2)) :
    f.update (A ++ tr :: B) =
      ⟨A.length, t2, if f.v * (t2 - t1) < 0 then -f.v else f.v⟩ := by
  unfold Firefly.update
  rw [scanCross_first _ _ _ _ 0 A B tr t1 t2 (by simpa using hprev)
    (by simpa using hself) (colli_of_attract hA) hf]
  unfold applyCross
  rw [if_pos hA, if_neg (by simp [hR])]
  simp

/-- C3 (amended): crossing a RETURN-flagged track that does not also carry
    the ATTRACT flag keeps the firefly's track reference, rolls its phase
    back to the pre-step phase `t_prev = f.t`, and negates the velocity
    exactly once. -/
theorem return_bounce (A B : List Track) (tr : Track) (f : Firefly) (t1 t2 : ℝ)
    (hself : A.length ≠ f.tri)
    (hR : tr.flags &&& FLAG_RETURN ≠ 0) (hA : tr.flags &&& FLAG_ATTRACT = 0)
    (hprev : ∀ j trj, A.get? j = some trj →
      j = f.tri ∨ trj.flags &&& FLAG_COLLI = 0 ∨
      tryCross trj (stepP1 (A ++ tr :: B) f) (stepP2 (A ++ tr :: B) f) = none)
    (hf : tryCross tr (stepP1 (A ++ tr :: B) f) (stepP2 (A ++ tr :: B) f) =
      some (t1, t2)) :
    f.update (A ++ tr :: B) = ⟨f.tri, f.t, -f.v⟩ := by
  unfold Firefly.update
  rw [scanCross_first _ _ _ _ 0 A B tr t1 t2 (by simpa using hprev)
    (by simpa using hself) (colli_of_return hR) hf]
  unfold applyCross
  rw [if_pos hR, if_neg (show ¬ tr.flags &&& FLAG_ATTRACT ≠ 0 by simp [hA])]

/-- Indices into a prefix of the track list resolve the same before and after
    appending further tracks. -/
lemma getTrack_prefix (A l : List Track) (i : ℕ) (h : i < A.length) :
    getTrack (A ++ l) i = getTrack A i := by
  unfold getTrack
  exact List.getD_append A l default i h

/-- C4 (amended): on the first detected crossing, the resolution applies the
    ATTRACT branch when the ATTRACT flag is set and then the RETURN branch
    when the RETURN flag is set (both branches run when the track carries
    both flags — two separate `if`s, not first-match-wins), and scanning
    stops there: the outcome is independent of every track after the crossed
    one, so at most one crossing is resolved per firefly per step. -/
theorem crossing_single (A : List Track) (tr : Track) (f : Firefly) (t1 t2 : ℝ)
    (htri : f.tri < A.length) (hC : tr.flags &&& FLAG_COLLI ≠ 0)
    (hprev : ∀ j trj, A.get? j = some trj →
      j = f.tri ∨ trj.flags &&& FLAG_COLLI = 0 ∨
      tryCross trj (stepP1 A f) (stepP2 A f) = none)
    (hf : tryCross tr (stepP1 A f) (stepP2 A f) = some (t1, t2)) :
    ∀ B : List Track, f.update (A ++ tr :: B) =
      applyCross A.length tr f.t ⟨f.tri, stepTnew A f, f.v⟩ t1 t2 := by
  intro B
  have hg : getTrack (A ++ tr :: B) f.tri = getTrack A f.tri :=
    getTrack_prefix A (tr :: B) f.tri htri
  have hp1 : stepP1 (A ++ tr :: B) f = stepP1 A f := by
    unfold stepP1; rw [hg]
  have htn : stepTnew (A ++ tr :: B) f = stepTnew A f := by
    unfold stepTnew; rw [hg]
  have hp2 : stepP2 (A ++ tr :: B) f = stepP2 A f := by
    unfold stepP2 stepTnew; rw [hg]
  unfold Firefly.update
  rw [hp1, hp2, htn]
  have := scanCross_first (stepP1 A f) (stepP2 A f) f.t
    ⟨f.tri, stepTnew A f, f.v⟩ 0 A B tr t1 t2 (by simpa using hprev)
    (by simp; omega) hC hf
  simpa using this

/-- The scanning loop can only keep the velocity or negate it. -/
lemma scanCross_v (p1 p2 : Vec2) (tp : ℝ) (fA : Firefly) (L : List (ℕ × Track)) :
    (scanCross p1 p2 tp fA L).v = fA.v ∨ (scanCross p1 p2 tp fA L).v = -fA.v := by
  induction L with
  | nil => left; rfl
  | cons e rest ih =>
    obtain ⟨k, tr⟩ := e
    rw [scanCross]
    by_cases h : k ≠ fA.tri ∧ tr.flags &&& FLAG_COLLI ≠ 0
    · rw [if_pos h]
      rcases htc : tryCross tr p1 p2 with _ | ⟨t1, t2⟩
      · exact ih
      · show (applyCross k tr tp fA t1 t2).v = fA.v ∨
          (applyCross k tr tp fA t1 t2).v = -fA.v
        unfold applyCross
        split_ifs <;> simp
    · rw [if_neg h]
      exact ih

/-- C10: one autonomous simulation step either keeps the velocity or negates
    it exactly, under every outcome (no crossing, ATTRACT, RETURN, or both),
    so the speed `|v|` is an invariant of `firefly::update`. -/
theorem update_speed_invariant (tracks : List Track) (f : Firefly) :
    ((f.update tracks).v = f.v ∨ (f.update tracks).v = -f.v) ∧
    |(f.update tracks).v| = |f.v| := by
  have h : (f.update tracks).v = f.v ∨ (f.update tracks).v = -f.v := by
    unfold Firefly.update
    simpa using scanCross_v (stepP1 tracks f) (stepP2 tracks f) f.t
      ⟨f.tri, stepTnew tracks f, f.v⟩ (List.enumFrom 0 tracks)
  refine ⟨h, ?_⟩
  rcases h with h | h <;> simp [h, abs_neg]

@[simp] lemma Vec2.mk_add (x y a b : ℝ) :
    (⟨x, y⟩ : Vec2) + ⟨a, b⟩ = ⟨x + a, y + b⟩ := rfl

@[simp] lemma Vec2.mk_sub (x y a b : ℝ) :
    (⟨x, y⟩ : Vec2) - ⟨a, b⟩ = ⟨x - a, y - b⟩ := rfl

@[simp] lemma Vec2.mk_mul (x y k : ℝ) :
    (⟨x, y⟩ : Vec2) * k = ⟨x * k, y * k⟩ := rfl

@[simp] lemma Vec2.mk_div (x y k : ℝ) :
    (⟨x, y⟩ : Vec2) / k = ⟨x / k, y / k⟩ := rfl

/-- Norm evaluation helper for concrete points. -/
lemma norm_eval (x y c : ℝ) (hc : 0 ≤ c) (h : x * x + y * y = c ^ 2) :
    Vec2.norm ⟨x, y⟩ = c := by
  show Real.sqrt (x * x + y * y) = c
  rw [h, Real.sqrt_sq hc]

lemma stepP1_CX (rest : List Track) :
    stepP1 (srcCX :: rest) ffCX = ⟨-(1 / 200), 0⟩ := by
  unfold stepP1 ffCX srcCX getTrack
  norm_num [Track.atPhase, Track.localAt, Track.o]

lemma stepTnew_CX (rest : List Track) :
    stepTnew (srcCX :: rest) ffCX = 201 / 200 := by
  unfold stepTnew ffCX srcCX getTrack wrapStep STEPS
  norm_num [Track.len]

lemma stepP2_CX (rest : List Track) :
    stepP2 (srcCX :: rest) ffCX = ⟨1 / 200, 0⟩ := by
  unfold stepP2
  rw [show stepTnew (srcCX :: rest) ffCX = 201 / 200 from stepTnew_CX rest]
  unfold ffCX srcCX getTrack
  norm_num [Track.atPhase, Track.localAt, Track.o]

lemma nearest_tgtCX_left (fl : ℕ) :
    (tgtCX fl).nearest ⟨-(1 / 200), 0⟩ = (1, 1 / 200) := by
  unfold Track.nearest tgtCX Track.o
  have hq : Real.sqrt (1 / 40000) = 1 / 200 := by
    rw [show (1 / 40000 : ℝ) = (1 / 200) ^ 2 by norm_num, Real.sqrt_sq (by norm_num)]
  norm_num [Track.localNearest, Vec2.dot, Vec2.norm, hq]

lemma nearest_tgtCX_right (fl : ℕ) :
    (tgtCX fl).nearest ⟨1 / 200, 0⟩ = (1, 1 / 200) := by
  unfold Track.nearest tgtCX Track.o
  have hq : Real.sqrt (1 / 40000) = 1 / 200 := by
    rw [show (1 / 40000 : ℝ) = (1 / 200) ^ 2 by norm_num, Real.sqrt_sq (by norm_num)]
  norm_num [Track.localNearest, Vec2.dot, Vec2.norm, hq]

lemma atPhase_tgtCX_left (fl : ℕ) :
    (tgtCX fl).atPhase (1 - 1 / 1000000) = ⟨0, -(1 / 1000000)⟩ := by
  unfold Track.atPhase tgtCX
  norm_num [Track.localAt, Track.o]

lemma atPhase_tgtCX_right (fl : ℕ) :
    (tgtCX fl).atPhase (1 + 1 / 1000000) = ⟨0, 1 / 1000000⟩ := by
  unfold Track.atPhase tgtCX
  norm_num [Track.localAt, Track.o]

/-- In the shared scenario the target track detects the crossing and returns
    the nudged parameter pair, independently of its flag bits. -/
lemma tryCross_tgtCX (fl : ℕ) :
    tryCross (tgtCX fl) ⟨-(1 / 200), 0⟩ ⟨1 / 200, 0⟩ =
      some (1 - 1 / 1000000, 1 + 1 / 1000000) := by
  have hseg : seg_intxn ⟨-(1 / 200), 0⟩ ⟨1 / 200, 0⟩ ⟨0, -(1 / 1000000)⟩
      ⟨0, 1 / 1000000⟩ := by
    constructor <;> (simp only [Vec2.det, Vec2.mk_sub]; norm_num)
  unfold tryCross
  rw [nearest_tgtCX_left, nearest_tgtCX_right]
  rw [if_neg (by norm_num)]
  dsimp only
  rw [if_pos (by norm_num : |(1 : ℝ) - 1| < 1 / 1000000)]
  rw [if_neg (by norm_num : ¬ ((1 : ℝ) < 1))]
  simp only [one_mul]
  rw [atPhase_tgtCX_left, atPhase_tgtCX_right]
  rw [if_pos hseg]

/-- Full-step evaluation in the shared scenario: scanning skips the
    firefly's own track (index 0) and resolves the crossing at index 1. -/
lemma updateCX (fl : ℕ) (hC : fl &&& FLAG_COLLI ≠ 0) :
    Firefly.update [srcCX, tgtCX fl] ffCX =
      applyCross 1 (tgtCX fl) (199 / 200) ⟨0, 201 / 200, 24 / 5⟩
        (1 - 1 / 1000000) (1 + 1 / 1000000) := by
  have hprev : ∀ j trj, ([srcCX] : List Track).get? j = some trj →
      0 + j = (⟨0, 201 / 200, 24 / 5⟩ : Firefly).tri ∨
      trj.flags &&& FLAG_COLLI = 0 ∨
      tryCross trj ⟨-(1 / 200), 0⟩ ⟨1 / 200, 0⟩ = none := by
    intro j trj hj
    rcases j with _ | j
    · left; rfl
    · simp at hj
  have h := scanCross_first ⟨-(1 / 200), 0⟩ ⟨1 / 200, 0⟩ (199 / 200)
    ⟨0, 201 / 200, 24 / 5⟩ 0 [srcCX] [] (tgtCX fl)
    (1 - 1 / 1000000) (1 + 1 / 1000000) hprev (by norm_num) hC (tryCross_tgtCX fl)
  unfold Firefly.update
  rw [stepP1_CX [tgtCX fl], stepP2_CX [tgtCX fl], stepTnew_CX [tgtCX fl]]
  show scanCross ⟨-(1 / 200), 0⟩ ⟨1 / 200, 0⟩ (199 / 200) ⟨0, 201 / 200, 24 / 5⟩
      (List.enumFrom 0 [srcCX, tgtCX fl]) = _
  simpa using h

lemma applyCX_attract :
    applyCross 1 (tgtCX 1) (199 / 200) ⟨0, 201 / 200, 24 / 5⟩
      (1 - 1 / 1000000) (1 + 1 / 1000000) = ⟨1, 1 + 1 / 1000000, 24 / 5⟩ := by
  unfold applyCross
  rw [if_neg (show ¬ (tgtCX 1).flags &&& FLAG_RETURN ≠ 0 by decide),
    if_pos (show (tgtCX 1).flags &&& FLAG_ATTRACT ≠ 0 by decide)]
  norm_num

lemma applyCX_return :
    applyCross 1 (tgtCX 2) (199 / 200) ⟨0, 201 / 200, 24 / 5⟩
      (1 - 1 / 1000000) (1 + 1 / 1000000) = ⟨0, 199 / 200, -(24 / 5)⟩ := by
  unfold applyCross
  rw [if_pos (show (tgtCX 2).flags &&& FLAG_RETURN ≠ 0 by decide),
    if_neg (show ¬ (tgtCX 2).flags &&& FLAG_ATTRACT ≠ 0 by decide)]

lemma applyCX_both :
    applyCross 1 (tgtCX 3) (199 / 200) ⟨0, 201 / 200, 24 / 5⟩
      (1 - 1 / 1000000) (1 + 1 / 1000000) = ⟨1, 199 / 200, -(24 / 5)⟩ := by
  unfold applyCross
  rw [if_pos (show (tgtCX 3).flags &&& FLAG_RETURN ≠ 0 by decide),
    if_pos (show (tgtCX 3).flags &&& FLAG_ATTRACT ≠ 0 by decide)]
  norm_num

/-- C2 refuted as stated: the crossed track `tgtCX 3` carries the ATTRACT
    flag (and passes the gate and the chord test), yet the post-step phase
    is the pre-step phase `199/200`, not the later projected parameter
    `1 + 1/1000000`, because the track also carries RETURN and the source
    applies both branches in sequence. -/
theorem C2_counterexample :
    (tgtCX 3).flags &&& FLAG_ATTRACT ≠ 0 ∧
    tryCross (tgtCX 3) (stepP1 [srcCX, tgtCX 3] ffCX)
      (stepP2 [srcCX, tgtCX 3] ffCX) =
      some (1 - 1 / 1000000, 1 + 1 / 1000000) ∧
    Firefly.update [srcCX, tgtCX 3] ffCX = ⟨1, 199 / 200, -(24 / 5)⟩ ∧
    (199 / 200 : ℝ) ≠ 1 + 1 / 1000000 := by
  refine ⟨by decide, ?_, ?_, by norm_num⟩
  · rw [stepP1_CX, stepP2_CX]
    exact tryCross_tgtCX 3
  · rw [updateCX 3 (by decide), applyCX_both]

/-- C3 refuted as stated: the crossed track `tgtCX 3` carries the RETURN
    flag (and passes the gate and the chord test), yet the post-step track
    reference changes to the crossed track (index 1), because the track
    also carries ATTRACT and the source applies both branches in sequence. -/
theorem C3_counterexample :
    (tgtCX 3).flags &&& FLAG_RETURN ≠ 0 ∧
    tryCross (tgtCX 3) (stepP1 [srcCX, tgtCX 3] ffCX)
      (stepP2 [srcCX, tgtCX 3] ffCX) =
      some (1 - 1 / 1000000, 1 + 1 / 1000000) ∧
    Firefly.update [srcCX, tgtCX 3] ffCX = ⟨1, 199 / 200, -(24 / 5)⟩ ∧
    (1 : ℕ) ≠ ffCX.tri := by
  refine ⟨by decide, ?_, ?_, by norm_num [ffCX]⟩
  · rw [stepP1_CX, stepP2_CX]
    exact tryCross_tgtCX 3
  · rw [updateCX 3 (by decide), applyCX_both]

/-- C4 refuted as stated: when the crossed track carries both flags, the
    outcome is neither the pure ATTRACT outcome (transfer with phase `t2`)
    nor the pure RETURN outcome (bounce on the original track): both
    branches are applied, so the firefly ends on the new track but with the
    rolled-back phase and negated velocity. -/
theorem C4_counterexample :
    Firefly.update [srcCX, tgtCX 3] ffCX = ⟨1, 199 / 200, -(24 / 5)⟩ ∧
    ¬ (Firefly.update [srcCX, tgtCX 3] ffCX = ⟨1, 1 + 1 / 1000000, 24 / 5⟩ ∨
       Firefly.update [srcCX, tgtCX 3] ffCX = ⟨ffCX.tri, ffCX.t, -ffCX.v⟩) := by
  have hu : Firefly.update [srcCX, tgtCX 3] ffCX = ⟨1, 199 / 200, -(24 / 5)⟩ := by
    rw [updateCX 3 (by decide), applyCX_both]
  refine ⟨hu, ?_⟩
  rw [hu]
  rintro (h | h)
  · have := congrArg Firefly.t h
    norm_num at this
  · have := congrArg Firefly.tri h
    norm_num [ffCX] at this

/-- Witness for the amended C2 in the shared scenario with a pure ATTRACT
    target: the firefly transfers to track index 1 at phase
    `t2 = 1 + 1/1000000` with unchanged velocity. -/
theorem attract_transfer_witness :
    ((tgtCX 1).flags &&& FLAG_ATTRACT ≠ 0 ∧ (tgtCX 1).flags &&& FLAG_RETURN = 0 ∧
      ([srcCX] : List Track).length ≠ ffCX.tri) ∧
    tryCross (tgtCX 1) (stepP1 ([srcCX] ++ tgtCX 1 :: []) ffCX)
      (stepP2 ([srcCX] ++ tgtCX 1 :: []) ffCX) =
      some (1 - 1 / 1000000, 1 + 1 / 1000000) ∧
    Firefly.update ([srcCX] ++ tgtCX 1 :: []) ffCX =
      ⟨1, 1 + 1 / 1000000, 24 / 5⟩ := by
  have hf : tryCross (tgtCX 1) (stepP1 ([srcCX] ++ tgtCX 1 :: []) ffCX)
      (stepP2 ([srcCX] ++ tgtCX 1 :: []) ffCX) =
      some (1 - 1 / 1000000, 1 + 1 / 1000000) := by
    rw [show ([srcCX] ++ tgtCX 1 :: [] : List Track) = [srcCX, tgtCX 1] from rfl,
      stepP1_CX, stepP2_CX]
    exact tryCross_tgtCX 1
  have hprev : ∀ j trj, ([srcCX] : List Track).get? j = some trj →
      j = ffCX.tri ∨ trj.flags &&& FLAG_COLLI = 0 ∨
      tryCross trj (stepP1 ([srcCX] ++ tgtCX 1 :: []) ffCX)
        (stepP2 ([srcCX] ++ tgtCX 1 :: []) ffCX) = none := by
    intro j trj hj
    rcases j with _ | j
    · left; rfl
    · simp at hj
  refine ⟨⟨by decide, by decide, by norm_num [ffCX]⟩, hf, ?_⟩
  have h := attract_transfer [srcCX] [] (tgtCX 1) ffCX
    (1 - 1 / 1000000) (1 + 1 / 1000000) (by norm_num [ffCX]) (by decide) (by decide)
    hprev hf
  rw [h]
  norm_num [ffCX]

/-- Witness for the amended C3 in the shared scenario with a pure RETURN
    target: the firefly keeps track index 0, returns to phase `199/200`,
    and its velocity is negated once. -/
theorem return_bounce_witness :
    ((tgtCX 2).flags &&& FLAG_RETURN ≠ 0 ∧ (tgtCX 2).flags &&& FLAG_ATTRACT = 0 ∧
      ([srcCX] : List Track).length ≠ ffCX.tri) ∧
    tryCross (tgtCX 2) (stepP1 ([srcCX] ++ tgtCX 2 :: []) ffCX)
      (stepP2 ([srcCX] ++ tgtCX 2 :: []) ffCX) =
      some (1 - 1 / 1000000, 1 + 1 / 1000000) ∧
    Firefly.update ([srcCX] ++ tgtCX 2 :: []) ffCX =
      ⟨0, 199 / 200, -(24 / 5)⟩ := by
  have hf : tryCross (tgtCX 2) (stepP1 ([srcCX] ++ tgtCX 2 :: []) ffCX)
      (stepP2 ([srcCX] ++ tgtCX 2 :: []) ffCX) =
      some (1 - 1 / 1000000, 1 + 1 / 1000000) := by
    rw [show ([srcCX] ++ tgtCX 2 :: [] : List Track) = [srcCX, tgtCX 2] from rfl,
      stepP1_CX, stepP2_CX]
    exact tryCross_tgtCX 2
  have hprev : ∀ j trj, ([srcCX] : List Track).get? j = some trj →
      j = ffCX.tri ∨ trj.flags &&& FLAG_COLLI = 0 ∨
      tryCross trj (stepP1 ([srcCX] ++ tgtCX 2 :: []) ffCX)
        (stepP2 ([srcCX] ++ tgtCX 2 :: []) ffCX) = none := by
    intro j trj hj
    rcases j with _ | j
    · left; rfl
    · simp at hj
  refine ⟨⟨by decide, by decide, by norm_num [ffCX]⟩, hf, ?_⟩
  have h := return_bounce [srcCX] [] (tgtCX 2) ffCX
    (1 - 1 / 1000000) (1 + 1 / 1000000) (by norm_num [ffCX]) (by decide) (by decide)
    hprev hf
  rw [h]
  norm_num [ffCX]

/-- Witness for the amended C4 in the shared scenario with a both-flags
    target and an empty suffix of later tracks. -/
theorem crossing_single_witness :
    (ffCX.tri < ([srcCX] : List Track).length ∧
      (tgtCX 3).flags &&& FLAG_COLLI ≠ 0) ∧
    tryCross (tgtCX 3) (stepP1 [srcCX] ffCX) (stepP2 [srcCX] ffCX) =
      some (1 - 1 / 1000000, 1 + 1 / 1000000) ∧
    Firefly.update ([srcCX] ++ tgtCX 3 :: []) ffCX =
      applyCross ([srcCX] : List Track).length (tgtCX 3) ffCX.t
        ⟨ffCX.tri, stepTnew [srcCX] ffCX, ffCX.v⟩
        (1 - 1 / 1000000) (1 + 1 / 1000000) := by
  have hf : tryCross (tgtCX 3) (stepP1 [srcCX] ffCX) (stepP2 [srcCX] ffCX) =
      some (1 - 1 / 1000000, 1 + 1 / 1000000) := by
    rw [stepP1_CX, stepP2_CX]
    exact tryCross_tgtCX 3
  have hprev : ∀ j trj, ([srcCX] : List Track).get? j = some trj →
      j = ffCX.tri ∨ trj.flags &&& FLAG_COLLI = 0 ∨
      tryCross trj (stepP1 [srcCX] ffCX) (stepP2 [srcCX] ffCX) = none := by
    intro j trj hj
    rcases j with _ | j
    · left; rfl
    · simp at hj
  exact ⟨⟨by norm_num [ffCX], by decide⟩, hf,
    crossing_single [srcCX] (tgtCX 3) ffCX (1 - 1 / 1000000) (1 + 1 / 1000000)
      (by norm_num [ffCX]) (by decide) hprev hf []⟩

lemma withinIn : firefliesWithin [trkC1] [ffIn] ⟨0, 0⟩ (1 / 2) = true := by
  have hpos : ffPos [trkC1] ffIn = ⟨0, 0⟩ := by
    unfold ffPos getTrack trkC1 ffIn
    norm_num [Track.atPhase, Track.localAt, Track.o]
  have hn : ((⟨0, 0⟩ : Vec2) - ⟨0, 0⟩).norm = 0 := by
    rw [Vec2.mk_sub, show (⟨0 - 0, 0 - 0⟩ : Vec2) = ⟨0, 0⟩ by norm_num]
    exact norm_eval 0 0 0 le_rfl (by norm_num)
  unfold firefliesWithin
  simp only [List.any_cons, List.any_nil, Bool.or_false, hpos, hn,
    decide_eq_true_eq]
  norm_num

lemma withinOut : firefliesWithin [trkC1] [ffOut] ⟨0, 0⟩ (1 / 2) = false := by
  have hpos : ffPos [trkC1] ffOut = ⟨1, 0⟩ := by
    unfold ffPos getTrack trkC1 ffOut
    norm_num [Track.atPhase, Track.localAt, Track.o]
  have hn : ((⟨1, 0⟩ : Vec2) - ⟨0, 0⟩).norm = 1 := by
    rw [Vec2.mk_sub, show (⟨1 - 0, 0 - 0⟩ : Vec2) = ⟨1, 0⟩ by norm_num]
    exact norm_eval 1 0 1 (by norm_num) (by norm_num)
  unfold firefliesWithin
  simp only [List.any_cons, List.any_nil, Bool.or_false, hpos, hn,
    decide_eq_false_iff_not]
  norm_num

lemma inStep_eval (c0 c : ℤ) (lo : Bool) (d : ℤ) :
    inStep ⟨.delay 5, ⟨0, 0⟩, 1 / 2, c0, c, lo, d⟩ =
      (let d2 := if 0 < d then d - 1 else d
       ⟨.delay 5, ⟨0, 0⟩, 1 / 2, c0,
        if !lo && decide (d2 = 0) then c - 1 else c, decide (d2 = 0), d2⟩) := by
  unfold inStep bfUpdate
  dsimp only
  rw [withinIn]
  simp [bfEdge]

lemma outStep_eval (c0 c : ℤ) (lo : Bool) (d : ℤ) :
    outStep ⟨.delay 5, ⟨0, 0⟩, 1 / 2, c0, c, lo, d⟩ =
      ⟨.delay 5, ⟨0, 0⟩, 1 / 2, c0, c, false, 5⟩ := by
  unfold outStep bfUpdate
  dsimp only
  rw [withinOut]
  simp [bfEdge]

/-- C8: with a 5-step countdown, a firefly entering the radius and staying
    inside causes exactly one decrement, on the 5th tick (ticks 1-4 leave
    the count unchanged, tick 5 decrements, tick 6 does not decrement
    again); and a firefly that leaves after 3 ticks inside resets the
    bellflower exactly to its starting state, so the countdown restarts
    from 5 with no partial progress carried over. -/
theorem bellflower_delay_counter (c : ℤ) :
    (inStep (bfC8 c)).c = c ∧
    (inStep (inStep (bfC8 c))).c = c ∧
    (inStep (inStep (inStep (bfC8 c)))).c = c ∧
    (inStep (inStep (inStep (inStep (bfC8 c))))).c = c ∧
    (inStep (inStep (inStep (inStep (inStep (bfC8 c)))))).c = c - 1 ∧
    (inStep (inStep (inStep (inStep (inStep (inStep (bfC8 c))))))).c = c - 1 ∧
    outStep (inStep (inStep (inStep (bfC8 c)))) = bfC8 c := by
  have h1 : inStep (bfC8 c) = ⟨.delay 5, ⟨0, 0⟩, 1 / 2, c, c, false, 4⟩ := by
    rw [show bfC8 c = ⟨.delay 5, ⟨0, 0⟩, 1 / 2, c, c, false, 5⟩ from rfl,
      inStep_eval]
    norm_num
  have h2 : inStep ⟨.delay 5, ⟨0, 0⟩, 1 / 2, c, c, false, 4⟩ =
      ⟨.delay 5, ⟨0, 0⟩, 1 / 2, c, c, false, 3⟩ := by
    rw [inStep_eval]; norm_num
  have h3 : inStep ⟨.delay 5, ⟨0, 0⟩, 1 / 2, c, c, false, 3⟩ =
      ⟨.delay 5, ⟨0, 0⟩, 1 / 2, c, c, false, 2⟩ := by
    rw [inStep_eval]; norm_num
  have h4 : inStep ⟨.delay 5, ⟨0, 0⟩, 1 / 2, c, c, false, 2⟩ =
      ⟨.delay 5, ⟨0, 0⟩, 1 / 2, c, c, false, 1⟩ := by
    rw [inStep_eval]; norm_num
  have h5 : inStep ⟨.delay 5, ⟨0, 0⟩, 1 / 2, c, c, false, 1⟩ =
      ⟨.delay 5, ⟨0, 0⟩, 1 / 2, c, c - 1, true, 0⟩ := by
    rw [inStep_eval]; norm_num
  have h6 : inStep ⟨.delay 5, ⟨0, 0⟩, 1 / 2, c, c - 1, true, 0⟩ =
      ⟨.delay 5, ⟨0, 0⟩, 1 / 2, c, c - 1, true, 0⟩ := by
    rw [inStep_eval]; norm_num
  have hout : outStep ⟨.delay 5, ⟨0, 0⟩, 1 / 2, c, c, false, 2⟩ = bfC8 c := by
    rw [outStep_eval]
    rfl
  rw [h1, h2, h3, h4, h5, h6, hout]
  norm_num

/-- A bellflower tick never changes the fields `reset` writes from
    (`c0`, the kind with its `d0`) nor, for the immediate variant, the
    unused countdown, so resetting after any tick equals resetting the
    pre-tick state. -/
lemma bfReset_update (tracks : List Track) (ffs : List Firefly) (b : Bellflower) :
    bfReset (bfUpdate tracks ffs b) = bfReset b := by
  rcases b with ⟨k, o, r, c0, c, lo, d⟩
  cases k <;> simp [bfUpdate, bfEdge, bfReset]

lemma bfReset_idem (b : Bellflower) : bfReset (bfReset b) = bfReset b := by
  rcases b with ⟨k, o, r, c0, c, lo, d⟩
  cases k <;> simp [bfReset]

/-- Invariants of iterated ticks: the snapshot and the tracks are untouched,
    and the reset image of the bellflowers is preserved. -/
lemma sceneTick_iter (N : ℕ) (s : Scene) :
    (sceneTick^[N] s).firefliesInit = s.firefliesInit ∧
    (sceneTick^[N] s).tracks = s.tracks ∧
    (sceneTick^[N] s).bellflowers.map bfReset = s.bellflowers.map bfReset := by
  induction N with
  | zero => exact ⟨rfl, rfl, rfl⟩
  | succ n ih =>
    obtain ⟨h1, h2, h3⟩ := ih
    rw [Function.iterate_succ_apply']
    refine ⟨h1, h2, ?_⟩
    rw [← h3]
    simp [sceneTick, List.map_map, Function.comp_def, bfReset_update]

lemma map_reset_self (l : List Bellflower) (h : ∀ b ∈ l, bfReset b = b) :
    l.map bfReset = l := by
  induction l with
  | nil => rfl
  | cons b l ih =>
    simp only [List.map_cons, h b (by simp), ih (fun x hx => h x (by simp [hx]))]

/-- After any `stop_run` the bellflowers are in reset state, which is the
    state they hold at every reachable `start_run` (they are also constructed
    in reset state and never touched while paused). -/
lemma stopRun_bellflowers_reset (s : Scene) :
    ∀ b ∈ (stopRun s).bellflowers, bfReset b = b := by
  intro b hb
  simp only [stopRun, List.mem_map] at hb
  obtain ⟨a, ha, rfl⟩ := hb
  exact bfReset_idem a

/-- C9: starting a run, advancing any number of ticks, then stopping
    restores every firefly (track reference, phase, velocity) and — provided
    the bellflowers were in reset state at start-run, as they are in every
    reachable pre-run state — every bellflower's counter, latch and
    countdown to exactly their pre-run values. -/
theorem snapshot_restore (s : Scene) (N : ℕ)
    (hreset : ∀ b ∈ s.bellflowers, bfReset b = b) :
    (stopRun (sceneTick^[N] (startRun s))).fireflies = s.fireflies ∧
    (stopRun (sceneTick^[N] (startRun s))).bellflowers = s.bellflowers := by
  obtain ⟨hI, hT, hB⟩ := sceneTick_iter N (startRun s)
  constructor
  · show (sceneTick^[N] (startRun s)).firefliesInit = s.fireflies
    rw [hI]
    rfl
  · show ((sceneTick^[N] (startRun s)).bellflowers).map bfReset = s.bellflowers
    rw [hB]
    exact map_reset_self s.bellflowers hreset

theorem snapshot_restore_witness :
    (∀ b ∈ sceneW.bellflowers, bfReset b = b) ∧
    (stopRun (sceneTick^[1] (startRun sceneW))).fireflies = sceneW.fireflies ∧
    (stopRun (sceneTick^[1] (startRun sceneW))).bellflowers = sceneW.bellflowers := by
  have h : ∀ b ∈ sceneW.bellflowers, bfReset b = b := by
    intro b hb
    simp [sceneW] at hb
  exact ⟨h, snapshot_restore sceneW 1 h⟩

/-- Lemma: `atan2` recovers the angle of a point on a circle of positive radius,
    for angles in the principal range `(-pi, pi]`. -/
lemma atan2_on_circle (r θ : ℝ) (hr : 0 < r)
    (hθ : θ ∈ Set.Ioc (-Real.pi) Real.pi) :
    atan2 (r * Real.sin θ) (r * Real.cos θ) = θ := by
  unfold atan2
  have h : (⟨r * Real.cos θ, r * Real.sin θ⟩ : ℂ) =
      (r : ℂ) * (Complex.cos θ + Complex.sin θ * Complex.I) := by
    rw [Complex.mk_eq_add_mul_I, ← Complex.ofReal_cos, ← Complex.ofReal_sin]
    push_cast
    ring
  rw [h]
  exact Complex.arg_mul_cos_add_sin_mul_I hr hθ

/-- Uniqueness of the representative in `[0, c)` modulo `c`, phrased through
    the floor function. -/
lemma floor_rep (c θ x : ℝ) (hc : 0 < c) (m : ℤ) (hx0 : 0 ≤ x) (hxc : x < c)
    (hrep : θ = x + m * c) : θ - c * ⌊θ / c⌋ = x := by
  have h1 : θ / c = x / c + m := by
    rw [hrep]
    field_simp
  have h0 : ⌊x / c⌋ = 0 := by
    rw [Int.floor_eq_zero_iff]
    exact ⟨div_nonneg hx0 hc.le, (div_lt_one hc).mpr hxc⟩
  have h2 : ⌊θ / c⌋ = m := by
    rw [h1, Int.floor_add_int, h0, zero_add]
  rw [h2, hrep]
  ring

/-- C7: for a circular track of positive radius, projecting
    `position_at(phi)` back onto the track returns exactly
    `(phi mod length, 0)` with `length = 2*pi*r`: the angular projection
    round-trips the arclength parameter (reduced into `[0, length)`) and
    reports zero radial distance for on-curve points. -/
theorem cir_projection_roundtrip (o : Vec2) (r : ℝ) (fl : ℕ) (φ : ℝ)
    (hr : 0 < r) :
    (Track.cir o r fl).nearest ((Track.cir o r fl).atPhase φ) =
      (φ - 2 * Real.pi * r * ⌊φ / (2 * Real.pi * r)⌋, 0) := by
  obtain ⟨n, hn, -⟩ :=
    existsUnique_add_zsmul_mem_Ioc Real.two_pi_pos (φ / r) (-Real.pi)
  rw [zsmul_eq_mul, show -Real.pi + 2 * Real.pi = Real.pi by ring] at hn
  have hcos : Real.cos (φ / r) = Real.cos (φ / r + n * (2 * Real.pi)) :=
    (Real.cos_add_int_mul_two_pi _ n).symm
  have hsin : Real.sin (φ / r) = Real.sin (φ / r + n * (2 * Real.pi)) :=
    (Real.sin_add_int_mul_two_pi _ n).symm
  have hpoint : (Track.cir o r fl).atPhase φ - (Track.cir o r fl).o =
      ⟨r * Real.cos (φ / r + n * (2 * Real.pi)),
       r * Real.sin (φ / r + n * (2 * Real.pi))⟩ := by
    unfold Track.atPhase Track.localAt Track.o Vec2.rot
    rcases o with ⟨ox, oy⟩
    simp only [Vec2.mk_add, Vec2.mk_sub]
    rw [← hcos, ← hsin]
    norm_num
  have hφr : φ = r * (φ / r) := by field_simp
  have hfr : φ / (2 * Real.pi * r) = (φ / r) / (2 * Real.pi) := by
    rw [div_div]
    ring_nf
  have h2π : (0 : ℝ) < 2 * Real.pi := Real.two_pi_pos
  unfold Track.nearest
  rw [hpoint]
  simp only [Track.localNearest]
  rw [atan2_on_circle r _ hr hn]
  by_cases hneg : φ / r + n * (2 * Real.pi) < 0
  · rw [if_pos hneg]
    simp only [Prod.mk.injEq]
    constructor
    · have hfl := floor_rep (2 * Real.pi) (φ / r)
        (φ / r + n * (2 * Real.pi) + 2 * Real.pi) h2π (-n - 1)
        (by have := hn.1; linarith [Real.pi_pos]) (by linarith)
        (by push_cast; ring)
      have hrne : r ≠ 0 := ne_of_gt hr
      rw [hfr, ← hfl]
      field_simp
      ring
    · unfold Vec2.rot
      simp only [Vec2.mk_sub]
      rw [Real.cos_add_two_pi, Real.sin_add_two_pi]
      exact norm_eval _ _ 0 le_rfl (by ring)
  · rw [if_neg hneg]
    simp only [Prod.mk.injEq]
    constructor
    · have hfl := floor_rep (2 * Real.pi) (φ / r)
        (φ / r + n * (2 * Real.pi)) h2π (-n)
        (not_lt.mp hneg) (by have := hn.2; linarith [Real.pi_pos])
        (by push_cast; ring)
      have hrne : r ≠ 0 := ne_of_gt hr
      rw [hfr, ← hfl]
      field_simp
      ring
    · unfold Vec2.rot
      simp only [Vec2.mk_sub]
      exact norm_eval _ _ 0 le_rfl (by ring)

/-- Witness for C7 at radius 1 and phase 0. -/
theorem cir_projection_roundtrip_witness :
    (0 : ℝ) < 1 ∧
    (Track.cir ⟨0, 0⟩ 1 0).nearest ((Track.cir ⟨0, 0⟩ 1 0).atPhase 0) =
      (0 - 2 * Real.pi * 1 * ⌊(0 : ℝ) / (2 * Real.pi * 1)⌋, 0) :=
  ⟨by norm_num, cir_projection_roundtrip ⟨0, 0⟩ 1 0 0 (by norm_num)⟩

